import Mathlib

/-!
Verification of the merge/dedup/checkpoint core of the congressional
hearings pipeline (`cleanup_hearings.py`, `fetch_congressional_hearings.py`).

Entities (hearing records) are modelled as association lists from field
names to dynamically typed values, mirroring the Python dictionaries the
scripts manipulate.  Python dictionaries have unique keys and preserve
insertion order; lookups read the first occurrence and assignments update
the first occurrence in place (or append a new binding), so the
association-list operations below reproduce dictionary semantics exactly,
and theorems that need the unique-key property take a `Nodup` hypothesis
on the field names.
-/

set_option autoImplicit false

namespace Hearings

/-- A scalar element of a list value.  The merge/score/key logic only
ever inspects a list's length or compares whole lists for equality, never
the structure of an element, so elements are modelled as opaque scalars. -/
inductive Prim where
  | null
  | str (s : String)
  | int (n : Int)
  | bool (b : Bool)
deriving DecidableEq

/-- A Python value as used by the hearings scripts: `None`, strings,
integers, booleans, and lists.  Non-list, non-string, non-null objects
(numbers, booleans, nested dicts) are all treated identically by every
operation in scope (they count as populated and are never lists), so
`int`/`bool` stand in for that whole class. -/
inductive Value where
  | null
  | str (s : String)
  | int (n : Int)
  | bool (b : Bool)
  | list (l : List Prim)
deriving DecidableEq

/-- Python truthiness of a value (`bool(v)`). -/
def Value.truthy : Value → Bool
  | .null => false
  | .str s => s ≠ ""
  | .int n => n ≠ 0
  | .bool b => b
  | .list l => !l.isEmpty

/-- A hearing record: a Python dict as an insertion-ordered association
list from field name to value. -/
abbrev Entity := List (String × Value)

/-- Dictionary lookup `d.get(k)`: the value at the first binding of `k`. -/
def alistGet {κ β : Type} [DecidableEq κ] : List (κ × β) → κ → Option β
  | [], _ => none
  | (k', v) :: rest, k => if k' = k then some v else alistGet rest k

/-- Dictionary assignment `d[k] = v`: update the first binding of `k`
in place, or append a new binding. -/
def alistSet {κ β : Type} [DecidableEq κ] : List (κ × β) → κ → β → List (κ × β)
  | [], k, v => [(k, v)]
  | (k', v') :: rest, k, v =>
    if k' = k then (k, v) :: rest else (k', v') :: alistSet rest k v

/-- Python whitespace as stripped by `str.strip()`: the characters for
which `str.isspace()` holds — tab through carriage return (U+0009-U+000D),
the separators U+001C-U+001F, space, next line (U+0085), no-break space
(U+00A0), Ogham space mark (U+1680), the U+2000-U+200A spaces, line and
paragraph separators (U+2028, U+2029), narrow no-break space (U+202F),
medium mathematical space (U+205F), and ideographic space (U+3000). -/
def pyIsSpace (c : Char) : Bool :=
  c.toNat == 32 ||
  (decide (9 ≤ c.toNat) && decide (c.toNat ≤ 13)) ||
  (decide (28 ≤ c.toNat) && decide (c.toNat ≤ 31)) ||
  c.toNat == 133 || c.toNat == 160 || c.toNat == 5760 ||
  (decide (8192 ≤ c.toNat) && decide (c.toNat ≤ 8202)) ||
  c.toNat == 8232 || c.toNat == 8233 || c.toNat == 8239 ||
  c.toNat == 8287 || c.toNat == 12288

/-- Test that `value.strip()` is empty, i.e. the string has no non-whitespace
character. -/
def strBlank (s : String) : Bool :=
  s.data.all pyIsSpace

/-- Contribution of a single field value to `count_non_null_fields`
(`cleanup_hearings.py` lines 22-35): lists count when non-empty, strings
count when non-blank after stripping, any other non-null value counts. -/
def countValue : Value → Nat
  | .null => 0
  | .list l => if l.isEmpty then 0 else 1
  | .str s => if strBlank s then 0 else 1
  | .int _ => 1
  | .bool _ => 1

/-- Function `count_non_null_fields(hearing)`: the completeness score, summing the
per-field contributions over the record's fields. -/
def count_non_null_fields (hearing : Entity) : Nat :=
  hearing.foldl (fun count kv => count + countValue kv.2) 0

/-- Python `a or b`: `a` if truthy, else `b`. -/
def pyOr (a b : Value) : Value :=
  if a.truthy then a else b

/-- Dictionary access `hearing.get(k, d)`: lookup with default. -/
def getD (hearing : Entity) (k : String) (d : Value) : Value :=
  (alistGet hearing k).getD d

/-- The identity-key tuple type for hearings. -/
abbrev HKey := Value × Value × Value × Value × Value

/-- Function `get_hearing_key(hearing)` (`cleanup_hearings.py` lines 38-46):
`(title, date, congress, chamber, committee or subcommittee)` with
defaults `''`/`0` for absent fields. -/
def get_hearing_key (hearing : Entity) : HKey :=
  (getD hearing "title" (.str ""),
   getD hearing "date" (.str ""),
   getD hearing "congress" (.int 0),
   getD hearing "chamber" (.str ""),
   pyOr (getD hearing "committee" (.str "")) (getD hearing "subcommittee" (.str "")))

/-- One iteration of the `for key, value in secondary.items()` loop of
`merge_hearings` (`cleanup_hearings.py` lines 53-61).  The final branch
mirrors the dead `elif merged[key] is None and value is not None` of the
source (unreachable, since `merged[key] is None` was already handled). -/
def mergeStep (merged : Entity) (kv : String × Value) : Entity :=
  match alistGet merged kv.1 with
  | none => alistSet merged kv.1 kv.2
  | some mv =>
    if mv = Value.null then alistSet merged kv.1 kv.2
    else
      match kv.2, mv with
      | .list l2, .list l1 =>
        if l1.length < l2.length then alistSet merged kv.1 (.list l2) else merged
      | _, _ =>
        if mv = Value.null ∧ kv.2 ≠ Value.null then alistSet merged kv.1 kv.2
        else merged

/-- Function `merge_hearings(primary, secondary)` (`cleanup_hearings.py` lines
49-63): start from a copy of `primary` and fold the merge step over
`secondary`'s fields in order. -/
def merge_hearings (primary secondary : Entity) : Entity :=
  secondary.foldl mergeStep primary

/-- One iteration of the `deduplicate_hearings` loop (`cleanup_hearings.py`
lines 71-88).  State: the `seen` dict (key-ordered association list) and
the running `duplicates_found` counter. -/
def dedupStep (st : List (HKey × Entity) × Nat) (hearing : Entity) :
    List (HKey × Entity) × Nat :=
  let key := get_hearing_key hearing
  match alistGet st.1 key with
  | some existing =>
    let merged :=
      if count_non_null_fields existing < count_non_null_fields hearing then
        merge_hearings hearing existing
      else
        merge_hearings existing hearing
    (alistSet st.1 key merged, st.2 + 1)
  | none => (alistSet st.1 key hearing, st.2)

/-- Function `deduplicate_hearings(hearings)` (`cleanup_hearings.py` lines 66-93):
returns `list(seen.values())` together with the printed
`duplicates_found` count. -/
def deduplicate_hearings (hearings : List Entity) : List Entity × Nat :=
  let st := hearings.foldl dedupStep ([], 0)
  (st.1.map (·.2), st.2)

/-- The `secondary_lookup` dict of `merge_yaml_files`
(`cleanup_hearings.py` lines 113-116): key-indexed dict over the
secondary file's hearings, later entries overwriting earlier ones. -/
def secondaryLookup (secondary_hearings : List Entity) : List (HKey × Entity) :=
  secondary_hearings.foldl (fun tbl h => alistSet tbl (get_hearing_key h) h) []

/-- The in-memory core of `merge_yaml_files(primary, secondary)`
(`cleanup_hearings.py` lines 96-144), after both YAML files are loaded:
primary hearings are replaced by `merge_hearings(secondary_match, hearing)`
when the secondary lookup has their key, then secondary hearings whose key
is absent from the primary file are appended. -/
def merge_yaml_files (primary_hearings secondary_hearings : List Entity) :
    List Entity :=
  let lookup := secondaryLookup secondary_hearings
  let merged := primary_hearings.foldl
    (fun acc h =>
      match alistGet lookup (get_hearing_key h) with
      | some m => acc ++ [merge_hearings m h]
      | none => acc ++ [h])
    []
  let primary_keys := primary_hearings.map get_hearing_key
  secondary_hearings.foldl
    (fun acc h =>
      if get_hearing_key h ∈ primary_keys then acc else acc ++ [h])
    merged

/-- The sort key of `save_yaml` (`cleanup_hearings.py` lines 234-238) and
`save_yaml_output` (`fetch_congressional_hearings.py` lines 386-390):
`h.get('date') or '0000-00-00'`.  An absent, null, or empty date falls
back to the sentinel; a non-empty date string is used as-is.  (A non-string
truthy date would make Python's `sorted` raise; the model covers the
string/null/absent universe the scripts produce.) -/
def dateSortKey (hearing : Entity) : String :=
  match alistGet hearing "date" with
  | some (.str s) => if s = "" then "0000-00-00" else s
  | _ => "0000-00-00"

/-- Lexicographic comparison of character lists by code point, the order
Python uses to compare strings. -/
def charsLe : List Char → List Char → Bool
  | [], _ => true
  | _ :: _, [] => false
  | a :: as, b :: bs =>
    if a.toNat < b.toNat then true
    else if b.toNat < a.toNat then false
    else charsLe as bs

/-- Comparison `a <= b` on strings, by code points. -/
def strLe (a b : String) : Bool :=
  charsLe a.data b.data

/-- The descending date order used by `sorted(..., reverse=True)`. -/
def dateGE (a b : Entity) : Prop :=
  strLe (dateSortKey b) (dateSortKey a) = true

instance : DecidableRel dateGE := fun a b =>
  (inferInstance : Decidable (strLe (dateSortKey b) (dateSortKey a) = true))

/-- The hearing list as ordered by `save_yaml` / `save_yaml_output`:
stable sort, descending by `dateSortKey` (Python's `sorted` with
`reverse=True` is a stable sort, which insertion sort reproduces). -/
def sortHearings (hearings : List Entity) : List Entity :=
  List.insertionSort dateGE hearings

/-- A fetch partition: a `(congress, chamber)` pair. -/
abbrev Partition := Nat × String

/-- The per-partition fetch loop of `main`
(`fetch_congressional_hearings.py` lines 473-492): skip partitions already
in `completed`, otherwise extend the accumulated hearings with the
partition's fetch results and mark it completed.  `fetch` abstracts the
deterministic per-partition fetch. -/
def fetchLoop (fetch : Partition → List Entity) (parts : List Partition)
    (st : List Entity × List Partition) : List Entity × List Partition :=
  parts.foldl
    (fun st p =>
      if p ∈ st.2 then st else (st.1 ++ fetch p, st.2 ++ [p]))
    st

/-- Function `save_checkpoint(hearings, completed)`
(`fetch_congressional_hearings.py` lines 371-380): the durable checkpoint
contents, modelled as the stored pair. -/
def save_checkpoint (hearings : List Entity) (completed : List Partition) :
    Option (List Entity × List Partition) :=
  some (hearings, completed)

/-- Function `load_checkpoint()` (`fetch_congressional_hearings.py` lines 420-428):
a missing checkpoint file (`none`) yields empty hearings and an empty
completed list; otherwise the stored contents are returned. -/
def load_checkpoint : Option (List Entity × List Partition) →
    List Entity × List Partition
  | none => ([], [])
  | some st => st

/-- The value the merge loop leaves in a field, as a function of the
primary's binding for that field (`none` = absent) and the secondary's
value: the per-field content of `mergeStep`. -/
def mergeFieldVal (mv? : Option Value) (v : Value) : Value :=
  match mv? with
  | none => v
  | some mv =>
    if mv = Value.null then v
    else
      match v, mv with
      | .list l2, .list l1 => if l1.length < l2.length then .list l2 else mv
      | _, _ => mv

/-- The merge policy as the specification words it, field by field: if the
field is absent or null in the primary, take the secondary's value; if both
values are lists, keep the strictly longer one (ties keep the primary's);
otherwise the primary's non-null value is kept. -/
def spec_merged_field (primary secondary : Entity) (k : String) : Option Value :=
  match alistGet secondary k with
  | none => alistGet primary k
  | some sv =>
    match alistGet primary k with
    | none => some sv
    | some pv =>
      if pv = Value.null then some sv
      else
        match pv, sv with
        | .list l1, .list l2 =>
          some (if l2.length > l1.length then Value.list l2 else Value.list l1)
        | _, _ => some pv

/-- Append a key to an accumulator if it is not already present: the
effect of one dict insertion on the dict's key sequence. -/
def insKey {α : Type} [DecidableEq α] (ks : List α) (k : α) : List α :=
  if k ∈ ks then ks else ks ++ [k]

/-- The distinct identity keys of a hearing list, in order of first
occurrence (the specification's notion of "distinct Identity Keys"). -/
def distinctKeys (hearings : List Entity) : List HKey :=
  (hearings.map get_hearing_key).foldl insKey []

/-- Count of the elements of `ks` whose key was already seen, starting
from the already-seen key list `acc`. -/
def dupCnt {α : Type} [DecidableEq α] : List α → List α → Nat
  | [], _ => 0
  | k :: ks, acc => if k ∈ acc then dupCnt ks acc + 1 else dupCnt ks (insKey acc k)

/-- Field-count contribution of an optional binding. -/
def cntOpt (v? : Option Value) : Nat :=
  (v?.map countValue).getD 0

/-- Test for a list value.  A Python list is unhashable: a key tuple with
a list component makes `key in seen` raise `TypeError` in the dedup loop,
so such keys lie outside the dedup loop's domain. -/
def Value.isList : Value → Bool
  | .list _ => true
  | _ => false

/-- A hashable identity key: none of its five components is a list, so
the Python dict operations of `deduplicate_hearings` run without raising
on it. -/
def hashable (k : HKey) : Prop :=
  k.1.isList = false ∧ k.2.1.isList = false ∧ k.2.2.1.isList = false ∧
  k.2.2.2.1.isList = false ∧ k.2.2.2.2.isList = false

instance (k : HKey) : Decidable (hashable k) := by
  unfold hashable
  infer_instance

/-- The last hearing of `secondary_hearings` bearing identity key `k`
(the entry the `secondary_lookup` dict retains, since later insertions
overwrite earlier ones). -/
def secondaryMatch (secondary_hearings : List Entity) (k : HKey) : Option Entity :=
  secondary_hearings.reverse.find? (fun m => decide (get_hearing_key m = k))

/-! ### Dictionary (association list) lemmas -/

section AListLemmas

variable {κ β : Type} [DecidableEq κ]

theorem alistGet_alistSet_self (l : List (κ × β)) (k : κ) (v : β) :
    alistGet (alistSet l k v) k = some v := by
  induction l with
  | nil => simp [alistGet, alistSet]
  | cons kv rest ih =>
    obtain ⟨k1, v1⟩ := kv
    by_cases h : k1 = k
    · subst h
      simp [alistSet, alistGet]
    · simp [alistSet, alistGet, h, ih]

theorem alistGet_alistSet_ne (l : List (κ × β)) {k k' : κ} (v : β) (h : k ≠ k') :
    alistGet (alistSet l k v) k' = alistGet l k' := by
  induction l with
  | nil => simp [alistGet, alistSet, h]
  | cons kv rest ih =>
    obtain ⟨k1, v1⟩ := kv
    by_cases hk : k1 = k
    · subst hk
      simp [alistSet, alistGet, h]
    · by_cases hk' : k1 = k'
      · subst hk'
        simp [alistSet, alistGet, hk]
      · simp [alistSet, alistGet, hk, hk', ih]

theorem alistSet_of_get_eq {l : List (κ × β)} {k : κ} {v : β}
    (h : alistGet l k = some v) : alistSet l k v = l := by
  induction l with
  | nil => simp [alistGet] at h
  | cons kv rest ih =>
    obtain ⟨k1, v1⟩ := kv
    by_cases hk : k1 = k
    · subst hk
      have h2 : v1 = v := by simpa [alistGet] using h
      simp [alistSet, ← h2]
    · have h2 : alistGet rest k = some v := by
        simpa [alistGet, hk] using h
      simp [alistSet, hk, ih h2]

theorem alistSet_of_get_none {l : List (κ × β)} {k : κ} (v : β)
    (h : alistGet l k = none) : alistSet l k v = l ++ [(k, v)] := by
  induction l with
  | nil => simp [alistSet]
  | cons kv rest ih =>
    obtain ⟨k1, v1⟩ := kv
    by_cases hk : k1 = k
    · subst hk
      simp [alistGet] at h
    · have h2 : alistGet rest k = none := by
        simpa [alistGet, hk] using h
      simp [alistSet, hk, ih h2]

theorem alistGet_eq_none_iff (l : List (κ × β)) (k : κ) :
    alistGet l k = none ↔ k ∉ l.map Prod.fst := by
  induction l with
  | nil => simp [alistGet]
  | cons kv rest ih =>
    obtain ⟨k1, v1⟩ := kv
    by_cases hk : k1 = k
    · subst hk
      simp [alistGet]
    · simp [alistGet, hk, ih, Ne.symm hk]

theorem alistGet_isSome_iff (l : List (κ × β)) (k : κ) :
    (∃ v, alistGet l k = some v) ↔ k ∈ l.map Prod.fst := by
  rw [← Decidable.not_not (p := k ∈ l.map Prod.fst), ← alistGet_eq_none_iff]
  cases alistGet l k <;> simp

theorem alistGet_of_mem_of_nodup {l : List (κ × β)}
    (hn : (l.map Prod.fst).Nodup) {kv : κ × β} (hm : kv ∈ l) :
    alistGet l kv.1 = some kv.2 := by
  induction l with
  | nil => simp at hm
  | cons kv0 rest ih =>
    obtain ⟨k1, v1⟩ := kv0
    simp only [List.map_cons, List.nodup_cons] at hn
    rcases List.mem_cons.mp hm with h | h
    · subst h
      simp [alistGet]
    · have hne : k1 ≠ kv.1 := by
        intro he
        apply hn.1
        rw [he]
        exact List.mem_map_of_mem Prod.fst h
      simp [alistGet, hne, ih hn.2 h]

theorem keys_alistSet_of_mem {l : List (κ × β)} {k : κ} (v : β)
    (h : k ∈ l.map Prod.fst) : (alistSet l k v).map Prod.fst = l.map Prod.fst := by
  induction l with
  | nil => simp at h
  | cons kv rest ih =>
    obtain ⟨k1, v1⟩ := kv
    by_cases hk : k1 = k
    · subst hk
      simp [alistSet]
    · have hmem : k ∈ rest.map Prod.fst := by
        rw [List.map_cons] at h
        rcases List.mem_cons.mp h with h1 | h1
        · exact absurd h1.symm hk
        · exact h1
      simp [alistSet, hk, ih hmem]

theorem keys_alistSet_of_not_mem {l : List (κ × β)} {k : κ} (v : β)
    (h : k ∉ l.map Prod.fst) :
    (alistSet l k v).map Prod.fst = l.map Prod.fst ++ [k] := by
  rw [alistSet_of_get_none v ((alistGet_eq_none_iff l k).mpr h)]
  simp

theorem keys_alistSet_insKey (l : List (κ × β)) (k : κ) (v : β) :
    (alistSet l k v).map Prod.fst = insKey (l.map Prod.fst) k := by
  by_cases h : k ∈ l.map Prod.fst
  · rw [keys_alistSet_of_mem v h, insKey, if_pos h]
  · rw [keys_alistSet_of_not_mem v h, insKey, if_neg h]

theorem mem_alistSet :
    ∀ {l : List (κ × β)} {k : κ} {v : β} {kv : κ × β},
      kv ∈ alistSet l k v → kv = (k, v) ∨ kv ∈ l := by
  intro l
  induction l with
  | nil =>
    intro k v kv h
    exact Or.inl (by simpa [alistSet] using h)
  | cons kv0 rest ih =>
    intro k v kv h
    obtain ⟨k1, v1⟩ := kv0
    by_cases hk : k1 = k
    · subst hk
      rw [show alistSet ((k1, v1) :: rest) k1 v = (k1, v) :: rest from by
        simp [alistSet]] at h
      rcases List.mem_cons.mp h with h1 | h1
      · exact Or.inl h1
      · exact Or.inr (List.mem_cons_of_mem _ h1)
    · rw [show alistSet ((k1, v1) :: rest) k v = (k1, v1) :: alistSet rest k v from by
        simp [alistSet, hk]] at h
      rcases List.mem_cons.mp h with h1 | h1
      · exact Or.inr (h1 ▸ List.mem_cons_self _ _)
      · rcases ih h1 with h2 | h2
        · exact Or.inl h2
        · exact Or.inr (List.mem_cons_of_mem _ h2)

end AListLemmas

/-! ### Field-level characterization of the merge loop -/

theorem mergeStep_eq_set (m : Entity) (kv : String × Value) :
    mergeStep m kv = alistSet m kv.1 (mergeFieldVal (alistGet m kv.1) kv.2) := by
  obtain ⟨k, v⟩ := kv
  simp only [mergeStep, mergeFieldVal]
  cases hma : alistGet m k with
  | none => rfl
  | some mv =>
    simp only
    by_cases hnull : mv = Value.null
    · simp [hnull]
    · rw [if_neg hnull, if_neg hnull]
      rcases v with _ | s2 | n2 | b2 | l2 <;> rcases mv with _ | s1 | n1 | b1 | l1 <;>
        simp only <;>
        first
        | exact absurd rfl hnull
        | (rw [if_neg fun hc => hnull hc.1]
           exact (alistSet_of_get_eq hma).symm)
        | (by_cases hlen : l1.length < l2.length
           · rw [if_pos hlen, if_pos hlen]
           · rw [if_neg hlen, if_neg hlen]
             exact (alistSet_of_get_eq hma).symm)

theorem alistGet_mergeStep (m : Entity) (kv : String × Value) (k : String) :
    alistGet (mergeStep m kv) k =
      if kv.1 = k then some (mergeFieldVal (alistGet m kv.1) kv.2)
      else alistGet m k := by
  rw [mergeStep_eq_set]
  by_cases hk : kv.1 = k
  · rw [if_pos hk, ← hk]
    exact alistGet_alistSet_self _ _ _
  · rw [if_neg hk]
    exact alistGet_alistSet_ne _ _ hk

theorem keys_mergeStep (m : Entity) (kv : String × Value) :
    (mergeStep m kv).map Prod.fst = insKey (m.map Prod.fst) kv.1 := by
  rw [mergeStep_eq_set, keys_alistSet_insKey]

theorem alistGet_merge_hearings :
    ∀ (s : List (String × Value)) (p : Entity) (k : String),
      (s.map Prod.fst).Nodup →
      alistGet (merge_hearings p s) k =
        match alistGet s k with
        | none => alistGet p k
        | some sv => some (mergeFieldVal (alistGet p k) sv) := by
  intro s
  induction s with
  | nil =>
    intro p k _
    simp [merge_hearings, alistGet]
  | cons kv rest ih =>
    intro p k hs
    obtain ⟨k1, v1⟩ := kv
    simp only [List.map_cons, List.nodup_cons] at hs
    rw [show merge_hearings p ((k1, v1) :: rest)
          = merge_hearings (mergeStep p (k1, v1)) rest from rfl]
    rw [ih (mergeStep p (k1, v1)) k hs.2]
    by_cases hk : k1 = k
    · subst hk
      have hrest : alistGet rest k1 = none :=
        (alistGet_eq_none_iff rest k1).mpr hs.1
      simp [hrest, alistGet, alistGet_mergeStep]
    · have hstep : alistGet (mergeStep p (k1, v1)) k = alistGet p k := by
        rw [alistGet_mergeStep]
        simp [hk]
      have hhead : alistGet ((k1, v1) :: rest) k = alistGet rest k := by
        simp [alistGet, hk]
      rw [hstep, hhead]

theorem mergeFieldVal_self (v : Value) : mergeFieldVal (some v) v = v := by
  cases v <;> simp [mergeFieldVal]

theorem mergeStep_self {a : Entity} {kv : String × Value}
    (h : alistGet a kv.1 = some kv.2) : mergeStep a kv = a := by
  rw [mergeStep_eq_set, h, mergeFieldVal_self]
  exact alistSet_of_get_eq h

theorem merge_self_of_lookup :
    ∀ {s : List (String × Value)} {a : Entity},
      (∀ kv ∈ s, alistGet a kv.1 = some kv.2) → merge_hearings a s = a := by
  intro s
  induction s with
  | nil =>
    intro a _
    rfl
  | cons kv rest ih =>
    intro a h
    rw [show merge_hearings a (kv :: rest)
          = merge_hearings (mergeStep a kv) rest from rfl]
    rw [mergeStep_self (h kv (List.mem_cons_self kv rest))]
    exact ih fun kv' hm => h kv' (List.mem_cons_of_mem _ hm)

/-- C1: for every field, the merged record holds exactly the value the
specification's merge policy prescribes — the secondary's value where the
primary's is absent or null, the strictly longer list where both are
lists (ties keeping the primary's), and otherwise the primary's non-null
value, never the secondary's. -/
theorem merge_field_policy (p s : Entity) (hs : (s.map Prod.fst).Nodup)
    (k : String) :
    alistGet (merge_hearings p s) k = spec_merged_field p s k := by
  rw [alistGet_merge_hearings s p k hs]
  unfold spec_merged_field
  cases hsv : alistGet s k with
  | none => rfl
  | some sv =>
    cases hpv : alistGet p k with
    | none => simp [mergeFieldVal]
    | some pv =>
      by_cases hnull : pv = Value.null
      · simp [mergeFieldVal, hnull]
      · rcases sv with _ | s2 | n2 | b2 | l2 <;>
          rcases pv with _ | s1 | n1 | b1 | l1 <;>
          simp_all [mergeFieldVal]

theorem merge_field_policy_witness :
    ((([("location", Value.str "DC")] : Entity)).map Prod.fst).Nodup ∧
    alistGet (merge_hearings [("location", Value.null)]
        [("location", Value.str "DC")]) "location"
      = spec_merged_field [("location", Value.null)]
          [("location", Value.str "DC")] "location" :=
  ⟨by decide, merge_field_policy _ _ (by decide) _⟩

/-- C6: merging a record with itself returns it unchanged, field for
field (idempotence of `merge_hearings`). -/
theorem merge_hearings_idempotent (a : Entity)
    (h : (a.map Prod.fst).Nodup) : merge_hearings a a = a :=
  merge_self_of_lookup fun _ hm => alistGet_of_mem_of_nodup h hm

theorem merge_hearings_idempotent_witness :
    ((([("title", Value.str "T"), ("date", Value.null),
        ("witnesses", Value.list [Prim.str "A"])] : Entity)).map Prod.fst).Nodup ∧
    merge_hearings
        [("title", Value.str "T"), ("date", Value.null),
         ("witnesses", Value.list [Prim.str "A"])]
        [("title", Value.str "T"), ("date", Value.null),
         ("witnesses", Value.list [Prim.str "A"])]
      = [("title", Value.str "T"), ("date", Value.null),
         ("witnesses", Value.list [Prim.str "A"])] :=
  ⟨by decide, merge_hearings_idempotent _ (by decide)⟩

/-! ### Key-sequence invariants of the dedup fold -/

section InsKeyLemmas

variable {α : Type} [DecidableEq α]

theorem mem_insKey (ks : List α) (k x : α) :
    x ∈ insKey ks k ↔ x ∈ ks ∨ x = k := by
  unfold insKey
  by_cases h : k ∈ ks
  · simp only [if_pos h]
    constructor
    · exact Or.inl
    · rintro (hx | rfl)
      · exact hx
      · exact h
  · simp [if_neg h]

theorem insKey_nodup {ks : List α} (h : ks.Nodup) (k : α) :
    (insKey ks k).Nodup := by
  unfold insKey
  by_cases hm : k ∈ ks
  · simpa [hm] using h
  · rw [if_neg hm, List.nodup_append]
    refine ⟨h, List.nodup_singleton k, fun a ha hak => ?_⟩
    rw [List.mem_singleton] at hak
    exact hm (hak ▸ ha)

theorem nodup_foldl_insKey (ks : List α) :
    ∀ acc : List α, acc.Nodup → (ks.foldl insKey acc).Nodup := by
  induction ks with
  | nil => exact fun acc h => h
  | cons k rest ih =>
    intro acc h
    exact ih (insKey acc k) (insKey_nodup h k)

theorem mem_foldl_insKey (ks : List α) :
    ∀ (acc : List α) (x : α), x ∈ ks.foldl insKey acc ↔ x ∈ acc ∨ x ∈ ks := by
  induction ks with
  | nil => simp
  | cons k rest ih =>
    intro acc x
    rw [List.foldl_cons, ih, mem_insKey]
    simp only [List.mem_cons]
    tauto

theorem dupCnt_add_length_foldl (ks : List α) :
    ∀ acc : List α,
      dupCnt ks acc + (ks.foldl insKey acc).length = acc.length + ks.length := by
  induction ks with
  | nil => simp [dupCnt]
  | cons k rest ih =>
    intro acc
    by_cases h : k ∈ acc
    · have hins : insKey acc k = acc := by simp [insKey, h]
      have := ih acc
      simp only [dupCnt, if_pos h, List.foldl_cons, hins, List.length_cons]
      omega
    · have hlen : (insKey acc k).length = acc.length + 1 := by
        simp [insKey, h]
      have := ih (insKey acc k)
      simp only [dupCnt, if_neg h, List.foldl_cons, List.length_cons]
      omega

end InsKeyLemmas

theorem dedupStep_fst_keys (st : List (HKey × Entity) × Nat) (h : Entity) :
    ((dedupStep st h).1).map Prod.fst
      = insKey (st.1.map Prod.fst) (get_hearing_key h) := by
  cases hma : alistGet st.1 (get_hearing_key h) <;>
    simp only [dedupStep, hma, keys_alistSet_insKey]

theorem dedup_fold_keys (hs : List Entity) :
    ∀ (seen : List (HKey × Entity)) (c : Nat),
      ((hs.foldl dedupStep (seen, c)).1).map Prod.fst
        = (hs.map get_hearing_key).foldl insKey (seen.map Prod.fst) := by
  induction hs with
  | nil => intro seen c; rfl
  | cons h rest ih =>
    intro seen c
    rw [List.foldl_cons, List.map_cons, List.foldl_cons]
    have hstep := dedupStep_fst_keys (seen, c) h
    cases hd : dedupStep (seen, c) h with
    | mk seen' c' =>
      rw [hd] at hstep
      rw [ih seen' c', hstep]

theorem dedup_fold_cnt (hs : List Entity) :
    ∀ (seen : List (HKey × Entity)) (c : Nat),
      (hs.foldl dedupStep (seen, c)).2
        = c + dupCnt (hs.map get_hearing_key) (seen.map Prod.fst) := by
  induction hs with
  | nil => intro seen c; simp [dupCnt]
  | cons h rest ih =>
    intro seen c
    rw [List.foldl_cons, List.map_cons]
    cases hget : alistGet seen (get_hearing_key h) with
    | some existing =>
      have hmem : get_hearing_key h ∈ seen.map Prod.fst :=
        (alistGet_isSome_iff seen _).mp ⟨existing, hget⟩
      have hstep : dedupStep (seen, c) h
          = (alistSet seen (get_hearing_key h)
              (if count_non_null_fields existing < count_non_null_fields h then
                merge_hearings h existing
              else merge_hearings existing h), c + 1) := by
        simp only [dedupStep, hget]
      rw [hstep, ih, keys_alistSet_of_mem _ hmem]
      simp only [dupCnt, if_pos hmem]
      omega
    | none =>
      have hmem : get_hearing_key h ∉ seen.map Prod.fst :=
        (alistGet_eq_none_iff seen _).mp hget
      have hstep : dedupStep (seen, c) h
          = (alistSet seen (get_hearing_key h) h, c) := by
        simp only [dedupStep, hget]
      rw [hstep, ih, keys_alistSet_insKey]
      simp only [dupCnt, if_neg hmem]

/-! ### Completeness-score lemmas -/

theorem foldl_count_shift (e : Entity) :
    ∀ n : Nat, e.foldl (fun c kv => c + countValue kv.2) n
      = n + e.foldl (fun c kv => c + countValue kv.2) 0 := by
  induction e with
  | nil => intro n; simp
  | cons kv rest ih =>
    intro n
    rw [List.foldl_cons, List.foldl_cons, ih (n + countValue kv.2),
      ih (0 + countValue kv.2)]
    omega

theorem count_foldl_init (e : Entity) (n : Nat) :
    e.foldl (fun c kv => c + countValue kv.2) n
      = n + count_non_null_fields e :=
  foldl_count_shift e n

theorem count_cons (kv : String × Value) (rest : Entity) :
    count_non_null_fields (kv :: rest)
      = countValue kv.2 + count_non_null_fields rest := by
  show (kv :: rest).foldl (fun c kv => c + countValue kv.2) 0 = _
  rw [List.foldl_cons, count_foldl_init]
  omega

theorem cntOpt_some (v : Value) : cntOpt (some v) = countValue v := rfl

theorem cntOpt_not : cntOpt none = 0 := rfl

theorem count_append_single (e : Entity) (kv : String × Value) :
    count_non_null_fields (e ++ [kv])
      = count_non_null_fields e + countValue kv.2 := by
  show (e ++ [kv]).foldl (fun c kv => c + countValue kv.2) 0 = _
  rw [List.foldl_append, count_foldl_init]
  simp [count_non_null_fields]

theorem count_alistSet {e : Entity} {k : String} {mv : Value} (v : Value)
    (h : alistGet e k = some mv) :
    count_non_null_fields (alistSet e k v) + countValue mv
      = count_non_null_fields e + countValue v := by
  induction e with
  | nil => simp [alistGet] at h
  | cons kv rest ih =>
    obtain ⟨k1, v1⟩ := kv
    by_cases hk : k1 = k
    · subst hk
      have h2 : v1 = mv := by simpa [alistGet] using h
      subst h2
      rw [show alistSet ((k1, v1) :: rest) k1 v = (k1, v) :: rest from by
        simp [alistSet]]
      rw [count_cons, count_cons]
      simp only
      omega
    · have h2 : alistGet rest k = some mv := by simpa [alistGet, hk] using h
      simp only [alistSet, if_neg hk, count_cons]
      have := ih h2
      omega

theorem countValue_le_one (v : Value) : countValue v ≤ 1 := by
  cases v <;> simp [countValue] <;> split <;> simp

theorem countValue_mergeFieldVal_left (mv? : Option Value) (v : Value) :
    cntOpt mv? ≤ countValue (mergeFieldVal mv? v) := by
  cases mv? with
  | none => simp [cntOpt_not]
  | some mv =>
    rw [cntOpt_some]
    by_cases hnull : mv = Value.null
    · subst hnull
      simp [countValue, mergeFieldVal]
    · simp only [mergeFieldVal, if_neg hnull]
      rcases v with _ | s2 | n2 | b2 | l2 <;> rcases mv with _ | s1 | n1 | b1 | l1 <;>
        simp only <;> try exact le_refl _
      by_cases hlen : l1.length < l2.length
      · rw [if_pos hlen]
        have h2 : ¬ l2.isEmpty := by
          cases l2
          · simp at hlen
          · simp
        calc countValue (Value.list l1) ≤ 1 := countValue_le_one _
          _ = countValue (Value.list l2) := by simp [countValue, h2]
      · rw [if_neg hlen]

theorem countValue_mergeFieldVal_right (mv? : Option Value) (v : Value)
    (hc : ∀ mv, mv? = some mv → mv = Value.null ∨ countValue mv = 1) :
    countValue v ≤ countValue (mergeFieldVal mv? v) := by
  cases mv? with
  | none => simp [mergeFieldVal]
  | some mv =>
    by_cases hnull : mv = Value.null
    · subst hnull
      simp [mergeFieldVal]
    · have hone : countValue mv = 1 :=
        (hc mv rfl).resolve_left hnull
      have hv : countValue v ≤ 1 := countValue_le_one v
      simp only [mergeFieldVal, if_neg hnull]
      rcases v with _ | s2 | n2 | b2 | l2 <;> rcases mv with _ | s1 | n1 | b1 | l1 <;>
        simp only <;>
        first
        | exact absurd rfl hnull
        | (rw [hone]; exact hv)
        | (by_cases hlen : l1.length < l2.length
           · rw [if_pos hlen]
           · rw [if_neg hlen, hone]
             exact hv)

theorem count_mergeStep_ge (m : Entity) (kv : String × Value) :
    count_non_null_fields m ≤ count_non_null_fields (mergeStep m kv) := by
  rw [mergeStep_eq_set]
  cases hma : alistGet m kv.1 with
  | none =>
    rw [alistSet_of_get_none _ hma, count_append_single]
    omega
  | some mv =>
    have h1 := count_alistSet (mergeFieldVal (some mv) kv.2) hma
    have h2 := countValue_mergeFieldVal_left (some mv) kv.2
    rw [cntOpt_some] at h2
    omega

theorem count_merge_ge_left (p : Entity) (s : List (String × Value)) :
    count_non_null_fields p ≤ count_non_null_fields (merge_hearings p s) := by
  induction s generalizing p with
  | nil => exact le_refl _
  | cons kv rest ih =>
    calc count_non_null_fields p
        ≤ count_non_null_fields (mergeStep p kv) := count_mergeStep_ge p kv
      _ ≤ count_non_null_fields (merge_hearings (mergeStep p kv) rest) := ih _
      _ = count_non_null_fields (merge_hearings p (kv :: rest)) := rfl

theorem count_eq_sum_keys :
    ∀ {e : Entity}, (e.map Prod.fst).Nodup →
      count_non_null_fields e
        = ∑ k in (e.map Prod.fst).toFinset, cntOpt (alistGet e k) := by
  intro e
  induction e with
  | nil => intro _; simp [count_non_null_fields]
  | cons kv rest ih =>
    intro hn
    obtain ⟨k1, v1⟩ := kv
    simp only [List.map_cons, List.nodup_cons] at hn
    rw [count_cons, List.map_cons, List.toFinset_cons,
      Finset.sum_insert (by simpa using hn.1)]
    have hhead : alistGet ((k1, v1) :: rest) k1 = some v1 := by
      simp [alistGet]
    have hrest : ∀ k ∈ (rest.map Prod.fst).toFinset,
        cntOpt (alistGet ((k1, v1) :: rest) k) = cntOpt (alistGet rest k) := by
      intro k hk
      have hne : k1 ≠ k := by
        intro he
        exact hn.1 (he ▸ List.mem_toFinset.mp hk)
      simp [alistGet, hne]
    rw [Finset.sum_congr rfl hrest, hhead, ← ih hn.2]
    simp [cntOpt]

theorem keys_merge_eq (s : List (String × Value)) :
    ∀ p : Entity,
      (merge_hearings p s).map Prod.fst
        = (s.map Prod.fst).foldl insKey (p.map Prod.fst) := by
  induction s with
  | nil => intro p; rfl
  | cons kv rest ih =>
    intro p
    rw [show merge_hearings p (kv :: rest)
          = merge_hearings (mergeStep p kv) rest from rfl]
    rw [ih (mergeStep p kv), keys_mergeStep, List.map_cons, List.foldl_cons]

theorem nodup_keys_merge {p : Entity} (s : List (String × Value))
    (hp : (p.map Prod.fst).Nodup) :
    ((merge_hearings p s).map Prod.fst).Nodup := by
  rw [keys_merge_eq]
  exact nodup_foldl_insKey _ _ hp

theorem mem_keys_merge (p : Entity) (s : List (String × Value)) (k : String) :
    k ∈ (merge_hearings p s).map Prod.fst
      ↔ k ∈ p.map Prod.fst ∨ k ∈ s.map Prod.fst := by
  rw [keys_merge_eq, mem_foldl_insKey]

theorem mem_of_alistGet {κ β : Type} [DecidableEq κ] :
    ∀ {l : List (κ × β)} {k : κ} {v : β},
      alistGet l k = some v → (k, v) ∈ l := by
  intro l
  induction l with
  | nil => intro k v h; simp [alistGet] at h
  | cons kv rest ih =>
    intro k v h
    obtain ⟨k1, v1⟩ := kv
    by_cases hk : k1 = k
    · subst hk
      have h2 : v1 = v := by simpa [alistGet] using h
      subst h2
      exact List.mem_cons_self _ _
    · have h2 : alistGet rest k = some v := by simpa [alistGet, hk] using h
      exact List.mem_cons_of_mem _ (ih h2)

/-- C3 counterexample: the two records below share an identity key, but
the merged record's completeness score is strictly below the maximum of
the two input scores — the primary's blank-string `location` is non-null,
so it survives the merge, masking the secondary's populated `location`,
which was counted in the secondary's score. -/
theorem score_merge_monotone_cex :
    get_hearing_key [("location", Value.str "")]
      = get_hearing_key [("location", Value.str "DC")] ∧
    count_non_null_fields
        (merge_hearings [("location", Value.str "")]
          [("location", Value.str "DC")])
      < max (count_non_null_fields [("location", Value.str "")])
          (count_non_null_fields [("location", Value.str "DC")]) := by
  decide

/-- C3 (amended): merging never lowers the primary's completeness score,
and when every field the primary carries is either null or meaningfully
present (counted by the scorer — i.e. the primary holds no blank-string or
empty-list values), the merged score is at least the maximum of both
scores.  Without that proviso a non-null but uncounted primary value
(blank string, empty list) can mask a counted secondary value, as the
counterexample shows. -/
theorem score_merge_monotone (a b : Entity)
    (ha : (a.map Prod.fst).Nodup) (hb : (b.map Prod.fst).Nodup)
    (_hkey : get_hearing_key a = get_hearing_key b)
    (hfields : ∀ kv ∈ a, kv.2 = Value.null ∨ countValue kv.2 = 1) :
    max (count_non_null_fields a) (count_non_null_fields b)
      ≤ count_non_null_fields (merge_hearings a b) := by
  rw [Nat.max_le]
  refine ⟨count_merge_ge_left a b, ?_⟩
  have hm : ((merge_hearings a b).map Prod.fst).Nodup := nodup_keys_merge b ha
  rw [count_eq_sum_keys hb, count_eq_sum_keys hm]
  have hsub : (b.map Prod.fst).toFinset
      ⊆ ((merge_hearings a b).map Prod.fst).toFinset := by
    intro k hk
    rw [List.mem_toFinset] at hk ⊢
    exact (mem_keys_merge a b k).mpr (Or.inr hk)
  calc ∑ k in (b.map Prod.fst).toFinset, cntOpt (alistGet b k)
      ≤ ∑ k in (b.map Prod.fst).toFinset, cntOpt (alistGet (merge_hearings a b) k) := by
        refine Finset.sum_le_sum fun k hk => ?_
        obtain ⟨sv, hsv⟩ := (alistGet_isSome_iff b k).mpr (List.mem_toFinset.mp hk)
        rw [hsv, alistGet_merge_hearings b a k hb, hsv]
        simp only [cntOpt, Option.map_some, Option.getD_some]
        refine countValue_mergeFieldVal_right _ _ fun mv hmv => ?_
        exact hfields (k, mv) (mem_of_alistGet hmv)
    _ ≤ ∑ k in ((merge_hearings a b).map Prod.fst).toFinset,
          cntOpt (alistGet (merge_hearings a b) k) :=
        Finset.sum_le_sum_of_subset hsub

theorem score_merge_monotone_witness :
    ((([("location", Value.str "DC"), ("time", Value.null)] : Entity)).map
        Prod.fst).Nodup ∧
    max (count_non_null_fields
          [("location", Value.str "DC"), ("time", Value.null)])
        (count_non_null_fields [("location", Value.str "NY")])
      ≤ count_non_null_fields
          (merge_hearings
            [("location", Value.str "DC"), ("time", Value.null)]
            [("location", Value.str "NY")]) := by
  constructor
  · decide
  · exact score_merge_monotone
      [("location", Value.str "DC"), ("time", Value.null)]
      [("location", Value.str "NY")]
      (by decide) (by decide) (by decide) (by decide)

/-! ### Key preservation under merge (hashable-key domain) -/

theorem truthy_ne_null {v : Value} (h : v.truthy = true) : v ≠ Value.null := by
  intro he
  subst he
  simp [Value.truthy] at h

theorem getD_truthy_get {e : Entity} {f : String}
    (h : (getD e f (Value.str "")).truthy = true) :
    alistGet e f = some (getD e f (Value.str "")) := by
  cases hg : alistGet e f with
  | none =>
    rw [getD, hg] at h
    simp [Value.truthy] at h
  | some v => simp [getD, hg]

theorem mergeFieldVal_of_primary_scalar {av : Value} (h1 : av ≠ Value.null)
    (h2 : av.isList = false) (bv : Value) : mergeFieldVal (some av) bv = av := by
  simp only [mergeFieldVal, if_neg h1]
  rcases bv <;> rcases av <;>
    first
    | rfl
    | (simp [Value.isList] at h2)

theorem mergeFieldVal_of_secondary_scalar {av : Value} (h1 : av ≠ Value.null)
    {bv : Value} (h2 : bv.isList = false) : mergeFieldVal (some av) bv = av := by
  simp only [mergeFieldVal, if_neg h1]
  rcases bv <;> rcases av <;>
    first
    | rfl
    | (simp [Value.isList] at h2)

theorem mergeFieldVal_falsy {mv? : Option Value} {v : Value}
    (h1 : (mv?.getD (Value.str "")).truthy = false) (h2 : v.truthy = false) :
    (mergeFieldVal mv? v).truthy = false := by
  cases mv? with
  | none => simpa [mergeFieldVal] using h2
  | some mv =>
    simp only [Option.getD_some] at h1
    by_cases hnull : mv = Value.null
    · subst hnull
      simpa [mergeFieldVal] using h2
    · simp only [mergeFieldVal, if_neg hnull]
      rcases v with _ | s2 | n2 | b2 | l2 <;> rcases mv with _ | s1 | n1 | b1 | l1 <;>
        simp only <;>
        first
        | exact h1
        | exact absurd rfl hnull
        | (have hl2 : l2.length = 0 := by
             rcases l2 with _ | ⟨x, xs⟩
             · rfl
             · simp [Value.truthy] at h2
           rw [if_neg (by omega)]
           exact h1)

theorem getD_merge {b : Entity} (a : Entity) (hb : (b.map Prod.fst).Nodup)
    (f : String) (d : Value) :
    getD (merge_hearings a b) f d
      = match alistGet b f with
        | none => getD a f d
        | some bv => mergeFieldVal (alistGet a f) bv := by
  rw [getD, alistGet_merge_hearings b a f hb]
  cases alistGet b f <;> simp [getD]

theorem getD_merge_scalar {a b : Entity} (hb : (b.map Prod.fst).Nodup)
    (f : String) (d : Value) (heq : getD a f d = getD b f d)
    (hnl : (getD a f d).isList = false) :
    getD (merge_hearings a b) f d = getD a f d := by
  rw [getD_merge a hb f d]
  cases hbv : alistGet b f with
  | none => rfl
  | some bv =>
    simp only
    have hgb : getD b f d = bv := by simp [getD, hbv]
    cases hav : alistGet a f with
    | none =>
      have hga : getD a f d = d := by simp [getD, hav]
      calc mergeFieldVal none bv = bv := rfl
        _ = getD a f d := by rw [← hgb, ← heq]
    | some av =>
      have hga : getD a f d = av := by simp [getD, hav]
      by_cases hnull : av = Value.null
      · have hbnull : bv = Value.null := by
          rw [hga, hnull, hgb] at heq
          exact heq.symm
        rw [show mergeFieldVal (some av) bv = bv from by
          rw [hnull]; simp [mergeFieldVal]]
        rw [hbnull, hga, hnull]
      · rw [mergeFieldVal_of_primary_scalar hnull (hga ▸ hnl) bv, hga]

theorem key5_merge_preserved {a b : Entity} (hb : (b.map Prod.fst).Nodup)
    (heq : pyOr (getD a "committee" (Value.str ""))
             (getD a "subcommittee" (Value.str ""))
         = pyOr (getD b "committee" (Value.str ""))
             (getD b "subcommittee" (Value.str "")))
    (hnl : (pyOr (getD a "committee" (Value.str ""))
             (getD a "subcommittee" (Value.str ""))).isList = false) :
    pyOr (getD (merge_hearings a b) "committee" (Value.str ""))
         (getD (merge_hearings a b) "subcommittee" (Value.str ""))
      = pyOr (getD a "committee" (Value.str ""))
          (getD a "subcommittee" (Value.str "")) := by
  have hmc := getD_merge (b := b) a hb "committee" (Value.str "")
  have hms := getD_merge (b := b) a hb "subcommittee" (Value.str "")
  by_cases hA : (getD a "committee" (Value.str "")).truthy
  · have hPy : pyOr (getD a "committee" (Value.str ""))
        (getD a "subcommittee" (Value.str ""))
        = getD a "committee" (Value.str "") := by simp [pyOr, hA]
    rw [hPy] at hnl ⊢
    have hac := getD_truthy_get hA
    have hneq := truthy_ne_null hA
    have hmc2 : getD (merge_hearings a b) "committee" (Value.str "")
        = getD a "committee" (Value.str "") := by
      rw [hmc]
      cases hbv : alistGet b "committee" with
      | none => rfl
      | some bv =>
        simp only
        rw [hac, mergeFieldVal_of_primary_scalar hneq hnl bv]
    rw [hmc2]
    simp [pyOr, hA]
  · have hPy : pyOr (getD a "committee" (Value.str ""))
        (getD a "subcommittee" (Value.str ""))
        = getD a "subcommittee" (Value.str "") := by simp [pyOr, hA]
    rw [hPy] at heq hnl ⊢
    by_cases hBc : (getD b "committee" (Value.str "")).truthy
    · have hPyb : pyOr (getD b "committee" (Value.str ""))
          (getD b "subcommittee" (Value.str ""))
          = getD b "committee" (Value.str "") := by simp [pyOr, hBc]
      rw [hPyb] at heq
      have hbc := getD_truthy_get hBc
      have hgbcnl : (getD b "committee" (Value.str "")).isList = false := by
        rw [← heq]
        exact hnl
      have hmc2 : getD (merge_hearings a b) "committee" (Value.str "")
          = mergeFieldVal (alistGet a "committee")
              (getD b "committee" (Value.str "")) := by
        rw [hmc, hbc]
      cases hav : alistGet a "committee" with
      | none =>
        have h1 : getD (merge_hearings a b) "committee" (Value.str "")
            = getD b "committee" (Value.str "") := by
          rw [hmc2, hav]
          rfl
        have h2 : pyOr (getD (merge_hearings a b) "committee" (Value.str ""))
            (getD (merge_hearings a b) "subcommittee" (Value.str ""))
            = getD b "committee" (Value.str "") := by
          rw [h1]
          simp [pyOr, hBc]
        rw [h2]
        exact heq.symm
      | some av =>
        by_cases hnull : av = Value.null
        · have h1 : getD (merge_hearings a b) "committee" (Value.str "")
              = getD b "committee" (Value.str "") := by
            rw [hmc2, hav, hnull]
            simp [mergeFieldVal]
          have h2 : pyOr (getD (merge_hearings a b) "committee" (Value.str ""))
              (getD (merge_hearings a b) "subcommittee" (Value.str ""))
              = getD b "committee" (Value.str "") := by
            rw [h1]
            simp [pyOr, hBc]
          rw [h2]
          exact heq.symm
        · have h1 : getD (merge_hearings a b) "committee" (Value.str "") = av := by
            rw [hmc2, hav]
            exact mergeFieldVal_of_secondary_scalar hnull hgbcnl
          have havF : av.truthy = false := by
            have hga : getD a "committee" (Value.str "") = av := by
              simp [getD, hav]
            rw [hga] at hA
            simpa using hA
          have h2 : pyOr (getD (merge_hearings a b) "committee" (Value.str ""))
              (getD (merge_hearings a b) "subcommittee" (Value.str ""))
              = getD (merge_hearings a b) "subcommittee" (Value.str "") := by
            rw [h1]
            simp [pyOr, havF]
          rw [h2]
          have hgasT : (getD a "subcommittee" (Value.str "")).truthy := by
            rw [heq]
            exact hBc
          have has := getD_truthy_get hgasT
          have hgasneq := truthy_ne_null hgasT
          rw [hms]
          cases hbs : alistGet b "subcommittee" with
          | none => rfl
          | some bvs =>
            simp only
            rw [has, mergeFieldVal_of_primary_scalar hgasneq hnl bvs]
    · have hPyb : pyOr (getD b "committee" (Value.str ""))
          (getD b "subcommittee" (Value.str ""))
          = getD b "subcommittee" (Value.str "") := by simp [pyOr, hBc]
      rw [hPyb] at heq
      have hAf : (getD a "committee" (Value.str "")).truthy = false := by
        simpa using hA
      have hmcF : (getD (merge_hearings a b) "committee"
          (Value.str "")).truthy = false := by
        rw [hmc]
        cases hbv : alistGet b "committee" with
        | none => exact hAf
        | some bv =>
          simp only
          refine mergeFieldVal_falsy hAf ?_
          have hgb : getD b "committee" (Value.str "") = bv := by
            simp [getD, hbv]
          rw [← hgb]
          simpa using hBc
      have h2 : pyOr (getD (merge_hearings a b) "committee" (Value.str ""))
          (getD (merge_hearings a b) "subcommittee" (Value.str ""))
          = getD (merge_hearings a b) "subcommittee" (Value.str "") := by
        simp [pyOr, hmcF]
      rw [h2, hms]
      cases hbs : alistGet b "subcommittee" with
      | none => rfl
      | some bvs =>
        simp only
        have hgbs : getD b "subcommittee" (Value.str "") = bvs := by
          simp [getD, hbs]
        rw [hgbs] at heq
        cases has : alistGet a "subcommittee" with
        | none =>
          have hga : getD a "subcommittee" (Value.str "") = Value.str "" := by
            simp [getD, has]
          rw [hga] at heq
          rw [show mergeFieldVal none bvs = bvs from rfl, ← heq, hga]
        | some avs =>
          have hga : getD a "subcommittee" (Value.str "") = avs := by
            simp [getD, has]
          by_cases hnull : avs = Value.null
          · have hbnull : bvs = Value.null := by
              rw [hga, hnull] at heq
              exact heq.symm
            rw [show mergeFieldVal (some avs) bvs = bvs from by
              rw [hnull]; simp [mergeFieldVal]]
            rw [hbnull, hga, hnull]
          · rw [mergeFieldVal_of_primary_scalar hnull (hga ▸ hnl) bvs, hga]

theorem key_merge_preserved {a b : Entity} (hb : (b.map Prod.fst).Nodup)
    (heq : get_hearing_key a = get_hearing_key b)
    (hh : hashable (get_hearing_key a)) :
    get_hearing_key (merge_hearings a b) = get_hearing_key a := by
  obtain ⟨h1, h2, h3, h4, h5⟩ := hh
  simp only [get_hearing_key] at h1 h2 h3 h4 h5
  simp only [get_hearing_key, Prod.mk.injEq] at heq ⊢
  obtain ⟨e1, e2, e3, e4, e5⟩ := heq
  exact ⟨getD_merge_scalar hb "title" _ e1 h1,
    getD_merge_scalar hb "date" _ e2 h2,
    getD_merge_scalar hb "congress" _ e3 h3,
    getD_merge_scalar hb "chamber" _ e4 h4,
    key5_merge_preserved hb e5 h5⟩

theorem dedup_fold_stored (hs : List Entity) :
    ∀ (seen : List (HKey × Entity)) (c : Nat),
      (∀ h ∈ hs, (h.map Prod.fst).Nodup) →
      (∀ h ∈ hs, hashable (get_hearing_key h)) →
      (∀ kv ∈ seen, get_hearing_key kv.2 = kv.1 ∧
        (kv.2.map Prod.fst).Nodup ∧ hashable kv.1) →
      ∀ kv ∈ (hs.foldl dedupStep (seen, c)).1,
        get_hearing_key kv.2 = kv.1 ∧
        (kv.2.map Prod.fst).Nodup ∧ hashable kv.1 := by
  induction hs with
  | nil =>
    intro seen c _ _ hinv kv hkv
    exact hinv kv hkv
  | cons h rest ih =>
    intro seen c hnd hhash hinv
    rw [List.foldl_cons]
    cases hget : alistGet seen (get_hearing_key h) with
    | none =>
      have hstep : dedupStep (seen, c) h
          = (alistSet seen (get_hearing_key h) h, c) := by
        simp only [dedupStep, hget]
      rw [hstep]
      refine ih _ _ (fun x hx => hnd x (List.mem_cons_of_mem _ hx))
        (fun x hx => hhash x (List.mem_cons_of_mem _ hx)) ?_
      intro kv hkv
      rcases mem_alistSet hkv with h1 | h1
      · subst h1
        exact ⟨rfl, hnd h (List.mem_cons_self _ _),
          hhash h (List.mem_cons_self _ _)⟩
      · exact hinv kv h1
    | some existing =>
      have hstep : dedupStep (seen, c) h
          = (alistSet seen (get_hearing_key h)
              (if count_non_null_fields existing < count_non_null_fields h then
                merge_hearings h existing
              else merge_hearings existing h), c + 1) := by
        simp only [dedupStep, hget]
      rw [hstep]
      obtain ⟨hex_key, hex_nodup, hex_hash⟩ := hinv _ (mem_of_alistGet hget)
      have hh_nd : (h.map Prod.fst).Nodup := hnd h (List.mem_cons_self _ _)
      have hh_hash : hashable (get_hearing_key h) :=
        hhash h (List.mem_cons_self _ _)
      have hkeymerged : get_hearing_key
          (if count_non_null_fields existing < count_non_null_fields h then
            merge_hearings h existing
          else merge_hearings existing h) = get_hearing_key h := by
        split
        · exact key_merge_preserved hex_nodup hex_key.symm hh_hash
        · have hkm := key_merge_preserved (a := existing) (b := h) hh_nd hex_key
            (by rw [hex_key]; exact hh_hash)
          rw [hkm, hex_key]
      have hmerged_nd : (((if count_non_null_fields existing
            < count_non_null_fields h then
          merge_hearings h existing
        else merge_hearings existing h)).map Prod.fst).Nodup := by
        split
        · exact nodup_keys_merge existing hh_nd
        · exact nodup_keys_merge h hex_nodup
      refine ih _ _ (fun x hx => hnd x (List.mem_cons_of_mem _ hx))
        (fun x hx => hhash x (List.mem_cons_of_mem _ hx)) ?_
      intro kv hkv
      rcases mem_alistSet hkv with h1 | h1
      · subst h1
        exact ⟨hkeymerged, hmerged_nd, hh_hash⟩
      · exact hinv kv h1

/-- C2: on the dictionary domain the dedup loop actually runs on — every
record having distinct field names and a hashable identity key (no
list-valued key component; a key tuple containing a list would make
Python's `key in seen` raise `TypeError` instead of deduplicating) —
`deduplicate_hearings` emits exactly one record per distinct Identity Key
of the input: the output's key sequence equals the distinct input keys in
order of first occurrence, so every distinct key appears exactly once,
and the reported duplicate count equals the input length minus the number
of distinct keys. -/
theorem dedupe_distinct_keys (hs : List Entity)
    (hnd : ∀ h ∈ hs, (h.map Prod.fst).Nodup)
    (hhash : ∀ h ∈ hs, hashable (get_hearing_key h)) :
    (deduplicate_hearings hs).1.map get_hearing_key = distinctKeys hs ∧
    (distinctKeys hs).Nodup ∧
    (∀ k, k ∈ distinctKeys hs ↔ k ∈ hs.map get_hearing_key) ∧
    (deduplicate_hearings hs).2 + (distinctKeys hs).length = hs.length := by
  have hstored := dedup_fold_stored hs [] 0 hnd hhash
    (fun kv hkv => absurd hkv (List.not_mem_nil kv))
  have hkeys := dedup_fold_keys hs [] 0
  have hcnt := dedup_fold_cnt hs [] 0
  simp only [List.map_nil] at hkeys hcnt
  refine ⟨?_, ?_, ?_, ?_⟩
  · show ((hs.foldl dedupStep ([], 0)).1.map (·.2)).map get_hearing_key
      = distinctKeys hs
    rw [List.map_map]
    have hcongr : ∀ kv ∈ (hs.foldl dedupStep ([], 0)).1,
        (get_hearing_key ∘ (·.2)) kv = Prod.fst kv :=
      fun kv hkv => (hstored kv hkv).1
    rw [List.map_congr_left hcongr, hkeys, distinctKeys]
  · rw [distinctKeys]
    exact nodup_foldl_insKey _ _ List.nodup_nil
  · intro k
    rw [distinctKeys, mem_foldl_insKey]
    simp
  · show (hs.foldl dedupStep ([], 0)).2 + (distinctKeys hs).length = hs.length
    rw [hcnt, distinctKeys]
    have ha := dupCnt_add_length_foldl (hs.map get_hearing_key) []
    have hlen : (hs.map get_hearing_key).length = hs.length :=
      List.length_map _ _
    simp only [List.length_nil] at ha
    omega

theorem dedupe_distinct_keys_witness :
    (∀ h ∈ ([[("title", Value.str "A")],
        [("title", Value.str "A"), ("location", Value.str "DC")]] : List Entity),
      (h.map Prod.fst).Nodup) ∧
    (∀ h ∈ ([[("title", Value.str "A")],
        [("title", Value.str "A"), ("location", Value.str "DC")]] : List Entity),
      hashable (get_hearing_key h)) ∧
    ((deduplicate_hearings [[("title", Value.str "A")],
        [("title", Value.str "A"), ("location", Value.str "DC")]]).1.map
          get_hearing_key
      = distinctKeys [[("title", Value.str "A")],
          [("title", Value.str "A"), ("location", Value.str "DC")]] ∧
    (distinctKeys [[("title", Value.str "A")],
        [("title", Value.str "A"), ("location", Value.str "DC")]]).Nodup ∧
    (∀ k, k ∈ distinctKeys [[("title", Value.str "A")],
        [("title", Value.str "A"), ("location", Value.str "DC")]]
      ↔ k ∈ ([[("title", Value.str "A")],
          [("title", Value.str "A"), ("location", Value.str "DC")]] :
            List Entity).map get_hearing_key) ∧
    (deduplicate_hearings [[("title", Value.str "A")],
        [("title", Value.str "A"), ("location", Value.str "DC")]]).2
      + (distinctKeys [[("title", Value.str "A")],
          [("title", Value.str "A"), ("location", Value.str "DC")]]).length
      = ([[("title", Value.str "A")],
          [("title", Value.str "A"), ("location", Value.str "DC")]] :
            List Entity).length) :=
  ⟨by decide, by decide, dedupe_distinct_keys _ (by decide) (by decide)⟩

/-! ### Identity-key properties -/

/-- C4 counterexample: a record whose `title` field is explicitly null
receives a different identity key from a record lacking `title` entirely —
`hearing.get('title', '')` substitutes the default only when the field is
absent, and returns the stored `None` when it is present. -/
theorem key_null_vs_absent_cex :
    get_hearing_key [("title", Value.null)] ≠ get_hearing_key [] := by
  decide

/-- C4 (amended): the key function is total by construction and
substitutes the defaults (empty string, and `0` for congress) for every
absent component; null and absent collapse to the same key only for the
`committee` component, where a null committee is falsy and the `or` falls
through to the subcommittee exactly as for a missing committee.  For the
`title` component (and likewise date, congress, chamber) an explicitly
null field is kept as the key component itself, so null and absent
produce different keys there. -/
theorem key_total_defaults (e : Entity) :
    (alistGet e "title" = none → (get_hearing_key e).1 = Value.str "") ∧
    (alistGet e "date" = none → (get_hearing_key e).2.1 = Value.str "") ∧
    (alistGet e "congress" = none → (get_hearing_key e).2.2.1 = Value.int 0) ∧
    (alistGet e "chamber" = none → (get_hearing_key e).2.2.2.1 = Value.str "") ∧
    (alistGet e "committee" = none →
      get_hearing_key (("committee", Value.null) :: e) = get_hearing_key e) ∧
    (alistGet e "title" = none →
      get_hearing_key (("title", Value.null) :: e) ≠ get_hearing_key e) := by
  refine ⟨?_, ?_, ?_, ?_, ?_, ?_⟩
  · intro h
    simp [get_hearing_key, getD, h]
  · intro h
    simp [get_hearing_key, getD, h]
  · intro h
    simp [get_hearing_key, getD, h]
  · intro h
    simp [get_hearing_key, getD, h]
  · intro h
    simp [get_hearing_key, getD, alistGet, h, pyOr, Value.truthy]
  · intro h heq
    have h1 : (get_hearing_key (("title", Value.null) :: e)).1 = Value.null := by
      simp [get_hearing_key, getD, alistGet]
    have h2 : (get_hearing_key e).1 = Value.str "" := by
      simp [get_hearing_key, getD, h]
    rw [heq, h2] at h1
    exact absurd h1 (by simp)

theorem key_total_defaults_witness :
    (get_hearing_key ([] : Entity)).1 = Value.str "" ∧
    get_hearing_key [("committee", Value.null)] = get_hearing_key [] ∧
    get_hearing_key [("title", Value.null)] ≠ get_hearing_key [] :=
  ⟨(key_total_defaults []).1 rfl, (key_total_defaults []).2.2.2.2.1 rfl,
   (key_total_defaults []).2.2.2.2.2 rfl⟩

/-- C10: two records that agree on the title, date, congress and chamber
fields, one filed under committee `x` with no (or empty) subcommittee and
the other under subcommittee `x` with no (or empty) committee, receive
equal identity keys — the `committee or subcommittee` component falls back
to the subcommittee whenever the committee is absent, null-like, or empty,
so the deduplicator collapses the two records. -/
theorem key_committee_subcommittee_collapse (a b : Entity) (x : String)
    (ht : alistGet a "title" = alistGet b "title")
    (hd : alistGet a "date" = alistGet b "date")
    (hcg : alistGet a "congress" = alistGet b "congress")
    (hch : alistGet a "chamber" = alistGet b "chamber")
    (hac : alistGet a "committee" = some (Value.str x))
    (has2 : alistGet a "subcommittee" = none ∨
      alistGet a "subcommittee" = some (Value.str ""))
    (hbs : alistGet b "subcommittee" = some (Value.str x))
    (hbc : alistGet b "committee" = none ∨
      alistGet b "committee" = some (Value.str "")) :
    get_hearing_key a = get_hearing_key b := by
  simp only [get_hearing_key, getD, ht, hd, hcg, hch, Prod.mk.injEq]
  refine ⟨trivial, trivial, trivial, trivial, ?_⟩
  by_cases hx : x = ""
  · subst hx
    rcases has2 with h1 | h1 <;> rcases hbc with h2 | h2 <;>
      simp [hac, hbs, h1, h2, pyOr, Value.truthy]
  · rcases has2 with h1 | h1 <;> rcases hbc with h2 | h2 <;>
      simp [hac, hbs, h1, h2, pyOr, Value.truthy, hx]

theorem key_committee_subcommittee_collapse_witness :
    get_hearing_key [("committee", Value.str "Armed Services")]
      = get_hearing_key [("subcommittee", Value.str "Armed Services")] :=
  key_committee_subcommittee_collapse _ _ "Armed Services"
    (by decide) (by decide) (by decide) (by decide) (by decide)
    (by decide) (by decide) (by decide)

/-! ### Checkpoint and resume -/

/-- C9: loading the checkpoint when no checkpoint file exists returns an
empty hearing list and an empty completed-partition list; the lookup is a
total function of the optional stored state, so it cannot fail. -/
theorem load_checkpoint_missing : load_checkpoint none = ([], []) := rfl

/-- C7: a fetch run that checkpoints after the first of two partitions,
stops, and resumes — loading the checkpointed hearings and completed set
and skipping completed partitions — accumulates exactly the hearings of a
single uninterrupted run over both partitions (the per-partition fetch
being a fixed function makes it deterministic by construction). -/
theorem resume_matches_uninterrupted (fetch : Partition → List Entity)
    (p1 p2 : Partition) :
    (fetchLoop fetch [p1, p2]
        (load_checkpoint
          (save_checkpoint (fetchLoop fetch [p1] ([], [])).1
            (fetchLoop fetch [p1] ([], [])).2))).1
      = (fetchLoop fetch [p1, p2] ([], [])).1 := by
  by_cases h : p2 = p1 <;>
    simp [fetchLoop, load_checkpoint, save_checkpoint, h]

/-! ### Output ordering (save_yaml / save_yaml_output) -/

theorem charsLe_total (as : List Char) :
    ∀ bs : List Char, charsLe as bs = true ∨ charsLe bs as = true := by
  induction as with
  | nil => intro bs; exact Or.inl rfl
  | cons a as ih =>
    intro bs
    cases bs with
    | nil => exact Or.inr rfl
    | cons b bs =>
      simp only [charsLe]
      rcases Nat.lt_trichotomy a.toNat b.toNat with h | h | h
      · left
        rw [if_pos h]
      · rw [h]
        simp only [if_neg (Nat.lt_irrefl b.toNat)]
        exact ih bs
      · right
        rw [if_pos h]

theorem charsLe_trans (as : List Char) :
    ∀ bs cs : List Char,
      charsLe as bs = true → charsLe bs cs = true → charsLe as cs = true := by
  induction as with
  | nil => intro bs cs _ _; rfl
  | cons a as ih =>
    intro bs cs h1 h2
    cases bs with
    | nil => simp [charsLe] at h1
    | cons b bs =>
      cases cs with
      | nil => simp [charsLe] at h2
      | cons c cs =>
        simp only [charsLe] at h1 h2 ⊢
        split_ifs at h1 h2 ⊢ <;>
          first
          | rfl
          | exact ih bs cs h1 h2
          | (exfalso; omega)

/-- C8 counterexample: the writer does not send every unparseable date to
the end — only a falsy (absent, null, or empty) date is replaced by the
sentinel; a non-empty unparseable string such as "zzz" is compared as an
ordinary string and here sorts BEFORE the entity carrying a valid date,
contradicting the claim that entities with unparseable dates sort after
all entities with valid dates. -/
theorem sort_unparseable_date_cex :
    sortHearings [[("date", Value.str "2024-01-01")], [("date", Value.str "zzz")]]
      = [[("date", Value.str "zzz")], [("date", Value.str "2024-01-01")]] := by
  decide

/-- C8 (amended): the writer always emits a permutation of the input
sorted in descending lexicographic order of the sort key
`h.get('date') or '0000-00-00'`, and every entity whose date field is
missing, null, or empty receives the sentinel key `0000-00-00` — minimal
among well-formed dates, so such entities sort after all entities with
well-formed (year 0001 onward) dates, and the sort never fails on missing
data.  A non-empty unparseable date string, however, is used as the key
unchanged and may sort anywhere. -/
theorem sort_by_date_spec (hs : List Entity) :
    List.Perm (sortHearings hs) hs ∧
    List.Sorted dateGE (sortHearings hs) ∧
    (∀ h : Entity,
      alistGet h "date" = none ∨ alistGet h "date" = some Value.null ∨
        alistGet h "date" = some (Value.str "") →
      dateSortKey h = "0000-00-00") := by
  refine ⟨List.perm_insertionSort dateGE hs, ?_, ?_⟩
  · haveI : IsTotal Entity dateGE := ⟨fun a b => charsLe_total _ _⟩
    haveI : IsTrans Entity dateGE :=
      ⟨fun _ _ _ h1 h2 => charsLe_trans _ _ _ h2 h1⟩
    exact List.sorted_insertionSort dateGE hs
  · intro h hcase
    rcases hcase with h1 | h1 | h1 <;> simp [dateSortKey, h1]

theorem sort_by_date_spec_witness : dateSortKey [] = "0000-00-00" :=
  (sort_by_date_spec []).2.2 [] (Or.inl rfl)

/-! ### Cross-file merge (merge_yaml_files) -/

theorem alistGet_secondaryLookup_fold (sh : List Entity) :
    ∀ (tbl : List (HKey × Entity)) (k : HKey),
      alistGet (sh.foldl (fun t h => alistSet t (get_hearing_key h) h) tbl) k
        = match sh.reverse.find? (fun m => decide (get_hearing_key m = k)) with
          | some m => some m
          | none => alistGet tbl k := by
  induction sh with
  | nil => intro tbl k; rfl
  | cons h rest ih =>
    intro tbl k
    rw [List.foldl_cons, ih, List.reverse_cons, List.find?_append]
    cases hr : rest.reverse.find? (fun m => decide (get_hearing_key m = k)) with
    | some m => simp [Option.or]
    | none =>
      simp only [Option.none_or]
      by_cases hk : get_hearing_key h = k
      · rw [List.find?_cons_of_pos _ (by simp [hk]), ← hk]
        exact alistGet_alistSet_self tbl _ h
      · rw [List.find?_cons_of_neg _ (by simp [hk]), List.find?_nil]
        exact alistGet_alistSet_ne tbl h hk

theorem alistGet_secondaryLookup (sh : List Entity) (k : HKey) :
    alistGet (secondaryLookup sh) k
      = sh.reverse.find? (fun m => decide (get_hearing_key m = k)) := by
  rw [secondaryLookup, alistGet_secondaryLookup_fold]
  cases sh.reverse.find? (fun m => decide (get_hearing_key m = k)) <;>
    simp [alistGet]

theorem foldl_match_append (lookup : List (HKey × Entity)) (l : List Entity) :
    ∀ acc : List Entity,
      l.foldl (fun acc h =>
          match alistGet lookup (get_hearing_key h) with
          | some m => acc ++ [merge_hearings m h]
          | none => acc ++ [h]) acc
        = acc ++ l.map (fun h =>
            match alistGet lookup (get_hearing_key h) with
            | some m => merge_hearings m h
            | none => h) := by
  induction l with
  | nil => intro acc; simp
  | cons h rest ih =>
    intro acc
    rw [List.foldl_cons, List.map_cons]
    cases hm : alistGet lookup (get_hearing_key h) <;>
      simp only [hm, ih, List.append_assoc, List.singleton_append]

theorem foldl_filter_append (pks : List HKey) (l : List Entity) :
    ∀ acc : List Entity,
      l.foldl (fun acc h =>
          if get_hearing_key h ∈ pks then acc else acc ++ [h]) acc
        = acc ++ l.filter (fun h => decide (get_hearing_key h ∉ pks)) := by
  induction l with
  | nil => intro acc; simp
  | cons h rest ih =>
    intro acc
    rw [List.foldl_cons, List.filter_cons]
    by_cases hm : get_hearing_key h ∈ pks
    · simp [hm, ih]
    · simp only [hm, if_neg hm, ih, decide_not]
      simp [List.append_assoc]

/-- C5: in the cross-file merge, every primary-file hearing whose identity
key has a match in the secondary file is replaced by
`merge_hearings(secondary_match, primary_hearing)` — the secondary record
(the last one in the secondary file with that key, as retained by the
lookup dict) supplying the primary argument of the merge — and every
secondary-file hearing whose key does not occur in the primary file is
appended, unmerged, after them. -/
theorem merge_yaml_files_spec (ph sh : List Entity) :
    merge_yaml_files ph sh
      = ph.map (fun h =>
          match secondaryMatch sh (get_hearing_key h) with
          | some m => merge_hearings m h
          | none => h)
        ++ sh.filter
            (fun h => decide (get_hearing_key h ∉ ph.map get_hearing_key)) := by
  simp only [merge_yaml_files]
  rw [foldl_match_append, foldl_filter_append, List.nil_append]
  simp only [secondaryMatch, alistGet_secondaryLookup]

end Hearings
